import Mathlib

/-!
# Verification of the transposable-elements genome stores

Shallow embedding of the two segment-store implementations of the
repository:

* `ListGenome` (file `src/ListGenome.py`) — an ordered array of
  `Feature(feature, start, end)` records plus a dict `identifiers_active`
  mapping TE identifiers to indices into that array.
* `LinkedListGenome` (file `src/LinkedGenome.py`) — a circular doubly
  linked list of `Feature(feature, length)` nodes plus a dict
  `active_identifier` mapping TE identifiers to node references.

Python `int` values are embedded as `Int`; Python lists as `List`;
Python (insertion-ordered) dicts as association lists `List (Nat × _)`
with first-match lookup, in-place update of an existing key, and append
of a new key.  An operation that raises an uncaught Python exception is
embedded as an `Option`/sentinel result; in every such spot the partial
mutations performed before the raise are preserved by the model (they
are noted case by case).
-/

namespace TE

/-- `Feature = namedtuple("Feature", ["feature", "start", "end"])` of
`ListGenome.py`.  The `end` field is called `stop` here because `end` is
a Lean keyword; `feature` is the state tag (0 = empty, 1 = active,
2 = inactive). -/
structure Feature where
  feature : Nat
  start : Int
  stop : Int
deriving DecidableEq, Repr

/-- `empty_te, active_te, inactive_te = 0, 1, 2`. -/
def empty_te : Nat := 0

def active_te : Nat := 1

def inactive_te : Nat := 2

/-- The state of a `ListGenome` instance: `genome`, `identifiers_active`
(as an insertion-ordered association list) and `counter_te`. -/
structure LG where
  genome : List Feature
  table : List (Nat × Nat)
  counter : Nat
deriving DecidableEq, Repr

/-- Python `list.insert(i, a)`: inserting at an index at or past the end
appends. -/
def pyInsert : List α → Nat → α → List α
  | l, 0, a => a :: l
  | [], _ + 1, a => [a]
  | x :: xs, i + 1, a => x :: pyInsert xs i a

/-- Python dict lookup `d.get(k)` on an insertion-ordered dict. -/
def dictGet (t : List (Nat × Nat)) (k : Nat) : Option Nat :=
  (t.find? (fun kv => kv.1 == k)).map (fun kv => kv.2)

/-- Python `d[k] = v`: update in place if the key is present, else append. -/
def dictSet (t : List (Nat × Nat)) (k : Nat) (v : Nat) : List (Nat × Nat) :=
  if t.any (fun kv => kv.1 == k) then
    t.map (fun kv => if kv.1 == k then (k, v) else kv)
  else t ++ [(k, v)]

/-- Python `d.pop(k)` (the state effect; the key is unique in a real dict). -/
def dictPop (t : List (Nat × Nat)) (k : Nat) : List (Nat × Nat) :=
  t.eraseP (fun kv => kv.1 == k)

/-- `ListGenome.__init__`: one empty feature spanning `[0, n)`. -/
def lgInit (n : Int) : LG :=
  { genome := [⟨empty_te, 0, n⟩], table := [], counter := 0 }

/-- `ListGenome.find_where_to_insert`: index of the first feature with
`start <= pos <= end`; `None` when no feature matches (the caller then
dies with a `TypeError`). -/
def find_where_to_insert (pos : Int) : List Feature → Option Nat
  | [] => none
  | f :: rest =>
    if f.start ≤ pos ∧ pos ≤ f.stop then some 0
    else (find_where_to_insert pos rest).map (· + 1)

/-- `ListGenome.__len__`: `self.genome[-1].end` (the genome list is never
empty in a live instance; `0` stands for the crash on an empty list). -/
def lgLen (s : LG) : Int :=
  match s.genome.getLast? with
  | some f => f.stop
  | none => 0

/-- A feature translated by `d` positions. -/
def shiftF (d : Int) (f : Feature) : Feature :=
  ⟨f.feature, f.start + d, f.stop + d⟩

/-- `ListGenome.update_genome_by_add_diff(length, index)`: shift the
`start`/`end` of every feature from `index` on by `length`. -/
def update_genome_by_add_diff (d : Int) (index : Nat) (g : List Feature) :
    List Feature :=
  g.take index ++ (g.drop index).map (shiftF d)

/-- `ListGenome.insert_into(new_feature, index, start, end)`.  The two
guard branches mirror the source: a negative `split_size` raises
`IndexError` before any mutation (the genome is returned unchanged), and
the `index + 2 > len(genome)` test selects `append` over `insert` (the
two agree because Python `insert` past the end appends). -/
def insert_into (g : List Feature) (new_feature : Nat) (index : Nat)
    (start stop : Int) : List Feature :=
  match g[index]? with
  | none => g
  | some old =>
    if old.stop - start < 0 then g
    else
      let g1 := g.set index ⟨new_feature, start, stop⟩
      let g2 := pyInsert g1 index ⟨old.feature, old.start, start⟩
      let right : Feature := ⟨old.feature, stop, stop + (old.stop - start)⟩
      let g3 := if g2.length < index + 2 then g2 ++ [right]
                else pyInsert g2 (index + 2) right
      update_genome_by_add_diff (stop - start) (index + 3) g3

/-- `ListGenome.disable_te(te)`.  `if original_index:` is Python
truthiness: `None` and `0` both skip the body.  When the stored index is
out of range the `pop` has already happened and the subsequent
`self.genome[original_index]` raises `IndexError`; the genome is then
unchanged, which is exactly what `List.set` out of range does. -/
def lgDisableTe (te : Nat) (s : LG) : LG :=
  match dictGet s.table te with
  | none => s
  | some i =>
    if i = 0 then s
    else
      match s.genome[i]? with
      | none => { s with table := dictPop s.table te }
      | some f =>
        { s with table := dictPop s.table te,
                 genome := s.genome.set i ⟨inactive_te, f.start, f.stop⟩ }

/-- `ListGenome.disable_if_active(index)`: disable the first identifier
whose stored index equals `index`. -/
def disable_if_active (index : Nat) (s : LG) : LG :=
  match s.table.find? (fun kv => kv.2 == index) with
  | none => s
  | some kv => lgDisableTe kv.1 s

/-- `ListGenome.update_identifiers_from(pos)`: add 3 to every stored
index greater than `pos` (an index is compared against a position). -/
def update_identifiers_from (pos : Int) (t : List (Nat × Nat)) :
    List (Nat × Nat) :=
  t.map (fun kv => if pos < (kv.2 : Int) then (kv.1, kv.2 + 3) else kv)

/-- `ListGenome.insert_te(pos, length)`.  A `none` result stands for the
uncaught `TypeError` raised when `find_where_to_insert` returns `None`
(no mutation has happened at that point). -/
def lgInsertTe (pos length : Int) (s : LG) : Option Nat × LG :=
  match find_where_to_insert pos s.genome with
  | none => (none, s)
  | some index =>
    let s1 := disable_if_active index s
    let g := insert_into s1.genome active_te index pos (pos + length)
    let c := s1.counter + 1
    let t := dictSet s1.table c (index + 1)
    (some c, { genome := g, table := update_identifiers_from pos t, counter := c })

/-- `ListGenome.calculate_pos_from_offset(offset, original)`: a single
conditional wrap, not a true modulus. -/
def calculate_pos_from_offset (s : LG) (offset : Int) (original : Feature) :
    Int :=
  let new_position := original.start + offset
  if new_position < 0 then lgLen s + new_position
  else if new_position > lgLen s then new_position - lgLen s
  else new_position

/-- `ListGenome.copy_te(te, offset)`.  `(none, s)` with `s` unchanged
stands for: the `te` is absent (`return None`, by design) or the stored
index is out of range (`IndexError` before any mutation). -/
def lgCopyTe (te : Nat) (offset : Int) (s : LG) : Option Nat × LG :=
  match dictGet s.table te with
  | none => (none, s)
  | some oi =>
    match s.genome[oi]? with
    | none => (none, s)
    | some original =>
      lgInsertTe (calculate_pos_from_offset s offset original)
        (original.stop - original.start) s

/-- `ListGenome.active_tes()`: the dict keys in order. -/
def lgActiveTes (s : LG) : List Nat :=
  s.table.map (fun kv => kv.1)

/-- The character for a feature state: `mapping = "-Ax"`. -/
def lgSym (n : Nat) : Char :=
  if n = 0 then '-' else if n = 1 then 'A' else 'x'

/-- `ListGenome.__str__` as a character list: each feature expanded to
`end - start` copies of its symbol (a non-positive Python string repeat
is empty, hence `Int.toNat`). -/
def lgRender (g : List Feature) : List Char :=
  (g.map (fun f => List.replicate (f.stop - f.start).toNat (lgSym f.feature))).flatten

/-- `ListGenome.__str__`. -/
def lgStr (s : LG) : String :=
  String.mk (lgRender s.genome)

/-! ## The Linked-Ring strategy (`src/LinkedGenome.py`)

The circular doubly linked list with its sentinel head is embedded as
the list of its nodes in ring order starting at `head.next`; stepping
`next` from the last node (that is, through the sentinel, which the
source skips) is stepping to index 0, and symmetrically for `prev`.
Python object identity of a `Link` is embedded as a `Nat` tag allocated
from a counter, so a dict value holding a node reference is a `Nat`. -/

/-- `Feature = namedtuple("Feature", ["feature", "length"])` of
`LinkedGenome.py`. -/
structure LFeature where
  feature : Nat
  length : Int
deriving DecidableEq, Repr

/-- The state touched by one `LinkedListGenome` instance: its ring of
feature nodes (with node-identity tags), the `active_identifier` dict
(te id to node tag) and `counter_te`, plus the allocator for node tags. -/
structure LLCore where
  ring : List (Nat × LFeature)
  table : List (Nat × Nat)
  counter : Nat
  nextNode : Nat
deriving DecidableEq, Repr

/-- The loop of `LinkedListGenome.insert_te` /
`into_iter_with_pos`: the first node whose running inclusive end
exceeds `pos`, returned with its ring index and that running end. -/
def llFindCover (pos : Int) : List (Nat × LFeature) → Int →
    Option (Nat × (Nat × LFeature) × Int)
  | [], _ => none
  | nf :: rest, acc =>
    let acc2 := acc + nf.2.length
    if acc2 > pos then some (0, nf, acc2)
    else (llFindCover pos rest acc2).map (fun x => (x.1 + 1, x.2.1, x.2.2))

/-- `LinkedListGenome.disable_feature(feature)` for the node at ring
index `j`: relabel it `inactive` and pop the first identifier whose
dict value is that node. -/
def llDisableFeature (j : Nat) (ring : List (Nat × LFeature))
    (table : List (Nat × Nat)) : List (Nat × LFeature) × List (Nat × Nat) :=
  match ring[j]? with
  | none => (ring, table)
  | some (nid, v) =>
    (ring.set j (nid, ⟨inactive_te, v.length⟩),
     table.eraseP (fun kv => kv.2 == nid))

/-- `LinkedListGenome.insert_into(length, feature, split_size_1,
split_size_2)` for the node at ring index `j`: disable it first if it is
active, shrink it in place to `split_size_1`, link a fresh `Active`
middle node and a fresh `split_size_2` remainder node after it, then
issue a new identifier mapped to the middle node. -/
def llInsertInto (length : Int) (j : Nat) (s1 s2 : Int) (c : LLCore) :
    LLCore :=
  match c.ring[j]? with
  | none => c
  | some (nid, v) =>
    let (ring0, table0) :=
      if v.feature = active_te then llDisableFeature j c.ring c.table
      else (c.ring, c.table)
    let v0f : Nat := if v.feature = active_te then inactive_te else v.feature
    let ring1 := ring0.set j (nid, ⟨v0f, s1⟩)
    let ring2 := pyInsert ring1 (j + 1) (c.nextNode, ⟨active_te, length⟩)
    let ring3 := pyInsert ring2 (j + 2) (c.nextNode + 1, ⟨v0f, s2⟩)
    { ring := ring3,
      table := dictSet table0 (c.counter + 1) c.nextNode,
      counter := c.counter + 1,
      nextNode := c.nextNode + 2 }

/-- `LinkedListGenome.insert_te(pos, length)`: `-1` when no node's
running end exceeds `pos` (no insertion happens then). -/
def llInsertTeCore (pos length : Int) (c : LLCore) : Int × LLCore :=
  match llFindCover pos c.ring 0 with
  | none => (-1, c)
  | some (j, nf, acc) =>
    let c' := llInsertInto length j (nf.2.length - acc + pos) (acc - pos) c
    ((c'.counter : Int), c')

/-- The `while offset > 0` walk of `LinkedListGenome.copy_te`: step to
the cyclic successor (`next`) or predecessor (`prev`) — the source's
explicit skip of the sentinel head is the wrap of the index — and
subtract that node's length, until the remaining offset is not
positive.  `fuel` bounds the recursion; `none` models the walk not
terminating (only possible when every node length is zero, which is
unreachable). -/
def llWalk (isNext : Bool) (ring : List (Nat × LFeature)) :
    Nat → Nat → Int → Option (Nat × Int)
  | 0, _, _ => none
  | fuel + 1, j, off =>
    if off ≤ 0 then some (j, off)
    else
      let n := ring.length
      let j' := if isNext then (j + 1) % n else (j + n - 1) % n
      match ring[j']? with
      | none => none
      | some (_, v) => llWalk isNext ring fuel j' (off - v.length)

/-- Fuel for `llWalk`.  On any state whose node lengths are nonnegative
with positive total — every reachable state — the source's loop makes a
net progress of at least the total per full cycle, so this many steps
always suffice; the bound is slack on purpose. -/
def llWalkFuel (off : Int) (ring : List (Nat × LFeature)) : Nat :=
  (off.natAbs + 1) * (ring.length + 1) + 1

/-- `LinkedListGenome.copy_te(te, offset)`.  Overall `none` is an
uncaught exception: `self.active_identifier[te]` raises `KeyError` when
`te` is not a key (nothing is mutated at that point); a non-terminating
walk is also `none`.  `some (none, c)` is the source's `return None` for
a node that is not active; `some (some id, c')` is a completed copy. -/
def llCopyTeCore (te : Nat) (offset : Int) (c : LLCore) :
    Option (Option Int × LLCore) :=
  match dictGet c.table te with
  | none => none
  | some nid =>
    match c.ring.findIdx? (fun nf => nf.1 == nid) with
    | none => none
    | some j0 =>
      match c.ring[j0]? with
      | none => none
      | some (_, orig) =>
        if orig.feature ≠ active_te then some (none, c)
        else if 0 < offset then
          let off0 := offset - orig.length
          match llWalk true c.ring (llWalkFuel off0 c.ring) j0 off0 with
          | none => none
          | some (jf, offf) =>
            match c.ring[jf]? with
            | none => none
            | some (_, vf) =>
              let c' := llInsertInto orig.length jf (vf.length + offf)
                          (abs offf) c
              some (some (c'.counter : Int), c')
        else
          let off0 := -offset
          match llWalk false c.ring (llWalkFuel off0 c.ring) j0 off0 with
          | none => none
          | some (jf, offf) =>
            match c.ring[jf]? with
            | none => none
            | some (_, vf) =>
              let c' := llInsertInto orig.length jf (abs offf)
                          (vf.length + offf) c
              some (some (c'.counter : Int), c')

/-- `LinkedListGenome.disable_te(te)`: `self.active_identifier.pop(te)`
raises `KeyError` (the `none` result, nothing mutated) when `te` is
absent; otherwise the popped node is relabelled inactive. -/
def llDisableTeCore (te : Nat) (c : LLCore) : Option LLCore :=
  match dictGet c.table te with
  | none => none
  | some nid =>
    let j := c.ring.findIdx (fun nf => nf.1 == nid)
    some { c with table := dictPop c.table te,
                  ring := match c.ring[j]? with
                          | none => c.ring
                          | some (nid', v) =>
                            c.ring.set j (nid', ⟨inactive_te, v.length⟩) }

/-- `LinkedListGenome.active_tes()`. -/
def llActiveTes (c : LLCore) : List Nat :=
  c.table.map (fun kv => kv.1)

/-- `LinkedListGenome.__len__`: the final accumulator of
`into_iter_with_pos`, i.e. the sum of node lengths. -/
def llLen (c : LLCore) : Int :=
  c.ring.foldl (fun acc nf => acc + nf.2.length) 0

/-- `LinkedListGenome.__str__` as a character list. -/
def llRender (ring : List (Nat × LFeature)) : List Char :=
  (ring.map (fun nf => List.replicate nf.2.length.toNat (lgSym nf.2.feature))).flatten

/-- `LinkedListGenome.__str__`. -/
def llStr (c : LLCore) : String :=
  String.mk (llRender c.ring)

/-- A single fresh `LinkedListGenome` instance as seen by a fresh Python
process: `__init__` builds the one-feature ring, and the class
attributes `active_identifier`/`counter_te` still have their initial
values `{}`/`0`. -/
def llInit (n : Int) : LLCore :=
  { ring := [(0, ⟨empty_te, n⟩)], table := [], counter := 0, nextNode := 1 }

/-- `insert_te` on a single instance. -/
def llInsertTe (pos length : Int) (c : LLCore) : Int × LLCore :=
  llInsertTeCore pos length c

/-- `copy_te` on a single instance. -/
def llCopyTe (te : Nat) (offset : Int) (c : LLCore) :
    Option (Option Int × LLCore) :=
  llCopyTeCore te offset c

/-- `disable_te` on a single instance. -/
def llDisableTe (te : Nat) (c : LLCore) : Option LLCore :=
  llDisableTeCore te c

/-! ### Two `LinkedListGenome` instances in one process

`active_identifier = {}` and `counter_te = 0` are *class* attributes.
`__init__` never rebinds them, every `self.active_identifier[...] = ...`
mutates the one shared dict in place, while `self.counter_te += 1`
rebinds `counter_te` as an instance attribute initialised from the class
value `0`.  So two instances share one active-ID table but count
identifiers independently from `0`. -/

/-- Two independently constructed `LinkedListGenome` instances: each has
its own ring and (after the first increment) its own `counter_te`, but
`active_identifier` is the single class-level dict. -/
structure LLWorld where
  ring1 : List (Nat × LFeature)
  next1 : Nat
  c1 : Nat
  ring2 : List (Nat × LFeature)
  next2 : Nat
  c2 : Nat
  table : List (Nat × Nat)
deriving DecidableEq, Repr

/-- `g1 = LinkedListGenome(n); g2 = LinkedListGenome(m)` in a fresh
process: two fresh rings, the shared class dict still `{}`. -/
def llwInit (n m : Int) : LLWorld :=
  { ring1 := [(0, ⟨empty_te, n⟩)], next1 := 1, c1 := 0,
    ring2 := [(0, ⟨empty_te, m⟩)], next2 := 1, c2 := 0,
    table := [] }

/-- `g1.insert_te(pos, length)`: mutates `g1`'s ring and instance
counter, and the shared class dict. -/
def llwInsertTe1 (pos length : Int) (w : LLWorld) : Int × LLWorld :=
  let (r, c') := llInsertTeCore pos length
    { ring := w.ring1, table := w.table, counter := w.c1, nextNode := w.next1 }
  (r, { w with ring1 := c'.ring, next1 := c'.nextNode, c1 := c'.counter,
               table := c'.table })

/-- `g2.active_tes()`: reads the shared class dict. -/
def llwActiveTes2 (w : LLWorld) : List Nat :=
  w.table.map (fun kv => kv.1)

/-! ## Specification notions

The partition invariant of the spec, reachability of states through the
public operations, and the well-formedness facts about the active-ID
table that the proofs track alongside it. -/

/-- The position reached after laying the features of `l` end to end
starting at `a`. -/
def endFrom : Int → List Feature → Int
  | a, [] => a
  | _, f :: rest => endFrom f.stop rest

/-- The features of `l` tile the positions from `a` on: each starts
where its predecessor stopped, and none runs backwards (`start ≤ stop`;
a zero-length feature is allowed, the code does produce them). -/
def chainFrom : Int → List Feature → Prop
  | _, [] => True
  | a, f :: rest => f.start = a ∧ a ≤ f.stop ∧ chainFrom f.stop rest

/-- Sum of the feature lengths of an ordered-array genome. -/
def sumLen : List Feature → Int
  | [] => 0
  | f :: rest => (f.stop - f.start) + sumLen rest

instance chainFromDec : (a : Int) → (l : List Feature) → Decidable (chainFrom a l)
  | _, [] => .isTrue trivial
  | a, f :: rest =>
    have : Decidable (chainFrom f.stop rest) := chainFromDec f.stop rest
    decidable_of_iff (f.start = a ∧ a ≤ f.stop ∧ chainFrom f.stop rest) Iff.rfl

/-- Well-formedness of the active-ID table of a `ListGenome`: every
stored index is at least `1` (`insert_te` stores `index + 1` and only
ever adds to it), every key was issued by the id counter, and keys are
distinct (they come from a Python dict). -/
def tableOK (t : List (Nat × Nat)) (counter : Nat) : Prop :=
  (∀ kv ∈ t, 1 ≤ kv.2 ∧ kv.1 ≤ counter) ∧ (t.map Prod.fst).Nodup

/-- The invariant of `ListGenome` states: a nonempty genome tiling
`[0, …)` plus a well-formed table. -/
def LGInv (s : LG) : Prop :=
  s.genome ≠ [] ∧ chainFrom 0 s.genome ∧ tableOK s.table s.counter

/-- `ListGenome` states reachable from a constructor call through the
public mutators, with `insert_te` meeting its spec preconditions
(`0 ≤ pos < length()`, `length > 0`); `copy_te` and `disable_te` are
unrestricted.  A call that dies in an uncaught exception leaves the
state of the model unchanged, so no reachable state is missed. -/
inductive ReachableLG : LG → Prop
  | init (n : Int) : 0 < n → ReachableLG (lgInit n)
  | insert (s : LG) (pos length : Int) : ReachableLG s →
      0 ≤ pos → pos < lgLen s → 0 < length →
      ReachableLG (lgInsertTe pos length s).2
  | copy (s : LG) (te : Nat) (offset : Int) : ReachableLG s →
      ReachableLG (lgCopyTe te offset s).2
  | disable (s : LG) (te : Nat) : ReachableLG s →
      ReachableLG (lgDisableTe te s)

/-- The invariant of `LinkedListGenome` states: no node has negative
length (zero lengths do occur). -/
def LLInv (c : LLCore) : Prop :=
  ∀ nf ∈ c.ring, 0 ≤ nf.2.length

/-- `LinkedListGenome` states reachable through the public mutators with
`insert_te` meeting its spec preconditions; for `copy_te`/`disable_te`
the new state exists only when the call returns (a `KeyError` aborts
before any mutation). -/
inductive ReachableLLG : LLCore → Prop
  | init (n : Int) : 0 < n → ReachableLLG (llInit n)
  | insert (c : LLCore) (pos length : Int) : ReachableLLG c →
      0 ≤ pos → pos < llLen c → 0 < length →
      ReachableLLG (llInsertTe pos length c).2
  | copy (c c' : LLCore) (te : Nat) (offset : Int) (r : Option Int) :
      ReachableLLG c → llCopyTe te offset c = some (r, c') → ReachableLLG c'
  | disable (c c' : LLCore) (te : Nat) : ReachableLLG c →
      llDisableTe te c = some c' → ReachableLLG c'

/-! ## List helpers -/

theorem pyInsert_append (l₁ l₂ : List α) (a : α) :
    pyInsert (l₁ ++ l₂) l₁.length a = l₁ ++ a :: l₂ := by
  induction l₁ with
  | nil => cases l₂ <;> rfl
  | cons x xs ih => simpa [pyInsert] using ih

theorem set_append (l₁ l₂ : List α) (x v : α) :
    (l₁ ++ x :: l₂).set l₁.length v = l₁ ++ v :: l₂ := by
  induction l₁ with
  | nil => rfl
  | cons y ys ih => simp [ih]

theorem get?_append_length (l₁ l₂ : List α) (x : α) :
    (l₁ ++ x :: l₂)[l₁.length]? = some x := by
  induction l₁ with
  | nil => simp
  | cons y ys ih => simpa using ih

theorem take_append_length (l₁ l₂ : List α) :
    (l₁ ++ l₂).take l₁.length = l₁ := by
  induction l₁ with
  | nil => rfl
  | cons y ys ih => simp [ih]

theorem drop_append_length (l₁ l₂ : List α) :
    (l₁ ++ l₂).drop l₁.length = l₂ := by
  induction l₁ with
  | nil => rfl
  | cons y ys ih => simp [ih]

theorem get?_eq_decomp {l : List α} {i : Nat} {x : α} (h : l[i]? = some x) :
    ∃ l₁ l₂, l = l₁ ++ x :: l₂ ∧ l₁.length = i := by
  induction l generalizing i with
  | nil => simp at h
  | cons y ys ih =>
    cases i with
    | zero =>
      refine ⟨[], ys, ?_, rfl⟩
      simp at h
      simp [h]
    | succ j =>
      obtain ⟨l₁, l₂, rfl, hlen⟩ := ih (by simpa using h)
      exact ⟨y :: l₁, l₂, rfl, by simp [hlen]⟩

theorem mem_pyInsert {l : List α} {i : Nat} {a x : α}
    (h : x ∈ pyInsert l i a) : x = a ∨ x ∈ l := by
  induction l generalizing i with
  | nil =>
    cases i <;> simp [pyInsert] at h <;> simp [h]
  | cons y ys ih =>
    cases i with
    | zero => simpa [pyInsert] using h
    | succ j =>
      simp [pyInsert] at h
      rcases h with h | h
      · exact Or.inr (by simp [h])
      · rcases ih h with h' | h'
        · exact Or.inl h'
        · exact Or.inr (by simp [h'])

theorem mem_set {l : List α} {i : Nat} {v x : α}
    (h : x ∈ l.set i v) : x = v ∨ x ∈ l := by
  induction l generalizing i with
  | nil => simp at h
  | cons y ys ih =>
    cases i with
    | zero =>
      rcases (by simpa using h : x = v ∨ x ∈ ys) with h' | h'
      · exact Or.inl h'
      · exact Or.inr (by simp [h'])
    | succ j =>
      rcases (by simpa using h : x = y ∨ x ∈ ys.set j v) with h' | h'
      · exact Or.inr (by simp [h'])
      · rcases ih h' with h'' | h''
        · exact Or.inl h''
        · exact Or.inr (by simp [h''])

/-! ## Chain lemmas -/

theorem chainFrom_append {a : Int} {l₁ l₂ : List Feature} :
    chainFrom a (l₁ ++ l₂) ↔ chainFrom a l₁ ∧ chainFrom (endFrom a l₁) l₂ := by
  induction l₁ generalizing a with
  | nil => simp [chainFrom, endFrom]
  | cons f rest ih =>
    constructor
    · rintro ⟨h1, h2, h3⟩
      exact ⟨⟨h1, h2, (ih.mp h3).1⟩, (ih.mp h3).2⟩
    · rintro ⟨⟨h1, h2, h3⟩, h4⟩
      exact ⟨h1, h2, ih.mpr ⟨h3, h4⟩⟩

theorem chainFrom_shift {a d : Int} {l : List Feature} (h : chainFrom a l) :
    chainFrom (a + d) (l.map (shiftF d)) := by
  induction l generalizing a with
  | nil => trivial
  | cons f rest ih =>
    obtain ⟨h1, h2, h3⟩ := h
    exact ⟨by simp [shiftF, h1], by simpa [shiftF] using h2, ih h3⟩

theorem chainFrom_mem {a : Int} {l : List Feature} (h : chainFrom a l)
    {f : Feature} (hf : f ∈ l) : f.start ≤ f.stop := by
  induction l generalizing a with
  | nil => cases hf
  | cons g rest ih =>
    obtain ⟨h1, h2, h3⟩ := h
    rcases List.mem_cons.mp hf with rfl | hf'
    · omega
    · exact ih h3 hf'

theorem endFrom_append (a : Int) (l₁ l₂ : List Feature) :
    endFrom a (l₁ ++ l₂) = endFrom (endFrom a l₁) l₂ := by
  induction l₁ generalizing a with
  | nil => rfl
  | cons f rest ih => simp [endFrom, ih]

theorem endFrom_getLast? {a : Int} {l : List Feature} (h : l ≠ []) :
    l.getLast? = some ⟨(l.getLast h).feature, (l.getLast h).start, endFrom a l⟩ := by
  induction l generalizing a with
  | nil => exact absurd rfl h
  | cons f rest ih =>
    cases rest with
    | nil => simp [endFrom, List.getLast]
    | cons g tl =>
      simpa [List.getLast?_cons_cons, endFrom, List.getLast] using
        ih (a := f.stop) (by simp)

theorem sumLen_eq_endFrom {a : Int} {l : List Feature} (h : chainFrom a l) :
    sumLen l = endFrom a l - a := by
  induction l generalizing a with
  | nil => simp [sumLen, endFrom]
  | cons f rest ih =>
    obtain ⟨h1, _, h3⟩ := h
    have := ih h3
    simp only [sumLen, endFrom, this, h1]
    omega

/-! ## `find_where_to_insert` and the `insert_into` splice -/

theorem find_where_spec {pos : Int} {g : List Feature} {i : Nat}
    (h : find_where_to_insert pos g = some i) :
    ∃ f, g[i]? = some f ∧ f.start ≤ pos ∧ pos ≤ f.stop := by
  induction g generalizing i with
  | nil => simp [find_where_to_insert] at h
  | cons f rest ih =>
    by_cases hc : f.start ≤ pos ∧ pos ≤ f.stop
    · simp only [find_where_to_insert, if_pos hc, Option.some.injEq] at h
      exact ⟨f, by simp [← h], hc.1, hc.2⟩
    · simp only [find_where_to_insert, if_neg hc, Option.map_eq_some'] at h
      obtain ⟨j, hj, rfl⟩ := h
      obtain ⟨f', h1, h2, h3⟩ := ih hj
      exact ⟨f', by simpa using h1, h2, h3⟩

theorem find_where_set_same {pos : Int} {g : List Feature} {j : Nat}
    {f : Feature} (x : Nat) (hj : g[j]? = some f) :
    find_where_to_insert pos (g.set j ⟨x, f.start, f.stop⟩) =
      find_where_to_insert pos g := by
  induction g generalizing j with
  | nil => rfl
  | cons y ys ih =>
    cases j with
    | zero =>
      have : y = f := by simpa using hj
      subst this
      simp [find_where_to_insert]
    | succ k =>
      have := ih (by simpa using hj)
      simp [find_where_to_insert, this]

theorem chainFrom_set_same {a : Int} {g : List Feature} {j : Nat}
    {f : Feature} (x : Nat) (hj : g[j]? = some f) :
    chainFrom a (g.set j ⟨x, f.start, f.stop⟩) ↔ chainFrom a g := by
  induction g generalizing a j with
  | nil => simp
  | cons y ys ih =>
    cases j with
    | zero =>
      have : y = f := by simpa using hj
      subst this
      simp [chainFrom]
    | succ k =>
      have := ih (a := y.stop) (by simpa using hj)
      simp [chainFrom, this]

theorem pyInsert_append_cons₂ (l₁ l₂ : List α) (a b c : α) :
    pyInsert (l₁ ++ a :: b :: l₂) (l₁.length + 2) c = l₁ ++ a :: b :: c :: l₂ := by
  induction l₁ with
  | nil => simp [pyInsert]
  | cons x xs ih => simpa [pyInsert] using ih

theorem update_diff_append₃ (d : Int) (l₁ l₂ : List Feature) (a b c : Feature) :
    update_genome_by_add_diff d (l₁.length + 3) (l₁ ++ a :: b :: c :: l₂) =
      l₁ ++ a :: b :: c :: l₂.map (shiftF d) := by
  unfold update_genome_by_add_diff
  have h : l₁ ++ a :: b :: c :: l₂ = (l₁ ++ [a, b, c]) ++ l₂ := by simp
  have hlen : l₁.length + 3 = (l₁ ++ [a, b, c]).length := by simp
  rw [h, hlen, take_append_length, drop_append_length]
  simp

theorem insert_into_eq {g : List Feature} {i : Nat} {old : Feature}
    (nf : Nat) {start stop : Int}
    (h : g[i]? = some old) (hss : start ≤ old.stop) :
    insert_into g nf i start stop =
      g.take i ++ ⟨old.feature, old.start, start⟩ :: ⟨nf, start, stop⟩ ::
        ⟨old.feature, stop, stop + (old.stop - start)⟩ ::
        (g.drop (i + 1)).map (shiftF (stop - start)) := by
  obtain ⟨l₁, l₂, rfl, rfl⟩ := get?_eq_decomp h
  have htake : (l₁ ++ old :: l₂).take l₁.length = l₁ :=
    take_append_length l₁ (old :: l₂)
  have hdrop : (l₁ ++ old :: l₂).drop (l₁.length + 1) = l₂ := by
    simp
  rw [htake, hdrop]
  simp only [insert_into, h, if_neg (by omega : ¬ old.stop - start < 0)]
  rw [set_append]
  rw [pyInsert_append]
  rw [if_neg (by simp)]
  rw [pyInsert_append_cons₂]
  exact update_diff_append₃ ..

theorem get?_set_self {l : List α} {j : Nat} {v : α} (h : j < l.length) :
    (l.set j v)[j]? = some v := by
  induction l generalizing j with
  | nil => simp at h
  | cons x xs ih =>
    cases j with
    | zero => simp
    | succ k => simpa using ih (by simpa using h)

theorem get?_set_ne {l : List α} {j i : Nat} {v : α} (h : j ≠ i) :
    (l.set j v)[i]? = l[i]? := by
  induction l generalizing i j with
  | nil => simp
  | cons x xs ih =>
    cases j with
    | zero => cases i with
      | zero => exact absurd rfl h
      | succ k => simp
    | succ j' =>
      cases i with
      | zero => simp
      | succ k => simpa using ih (by omega)

/-! ## Table well-formedness lemmas -/

theorem tableOK_sublist {t t' : List (Nat × Nat)} {c : Nat}
    (hsub : List.Sublist t' t) (h : tableOK t c) : tableOK t' c :=
  ⟨fun kv hkv => h.1 kv (hsub.subset hkv), h.2.sublist (hsub.map Prod.fst)⟩

theorem dictPop_sublist (t : List (Nat × Nat)) (k : Nat) :
    List.Sublist (dictPop t k) t :=
  List.eraseP_sublist t

theorem tableOK_mono {t : List (Nat × Nat)} {c c' : Nat}
    (h : tableOK t c) (hcc : c ≤ c') : tableOK t c' :=
  ⟨fun kv hkv => ⟨(h.1 kv hkv).1, le_trans (h.1 kv hkv).2 hcc⟩, h.2⟩

theorem update_identifiers_keys (pos : Int) (t : List (Nat × Nat)) :
    (update_identifiers_from pos t).map Prod.fst = t.map Prod.fst := by
  unfold update_identifiers_from
  rw [List.map_map]
  exact List.map_congr_left (fun kv _ => by by_cases h : pos < (kv.2 : Int) <;>
    simp [h])

theorem tableOK_update_identifiers {t : List (Nat × Nat)} {c : Nat}
    (pos : Int) (h : tableOK t c) :
    tableOK (update_identifiers_from pos t) c := by
  refine ⟨fun kv hkv => ?_, by rw [update_identifiers_keys]; exact h.2⟩
  simp only [update_identifiers_from, List.mem_map] at hkv
  obtain ⟨kv', hkv', rfl⟩ := hkv
  have := h.1 kv' hkv'
  by_cases hc : pos < (kv'.2 : Int) <;> simp [hc] <;> omega

theorem tableOK_dictSet_fresh {t : List (Nat × Nat)} {c i : Nat}
    (h : tableOK t c) (hv : 1 ≤ i) :
    tableOK (dictSet t (c + 1) i) (c + 1) := by
  have hnot : t.any (fun kv => kv.1 == c + 1) = false := by
    rw [List.any_eq_false]
    intro kv hkv
    have := (h.1 kv hkv).2
    simp only [beq_iff_eq]
    omega
  unfold dictSet
  rw [hnot]
  simp only [Bool.false_eq_true, if_false]
  constructor
  · intro kv hkv
    rcases List.mem_append.mp hkv with hkv | hkv
    · exact ⟨(h.1 kv hkv).1, by have := (h.1 kv hkv).2; omega⟩
    · have : kv = (c + 1, i) := by simpa using hkv
      subst this
      exact ⟨hv, le_refl _⟩
  · rw [List.map_append]
    refine List.Nodup.append h.2 (by simp) ?_
    intro k hk hk'
    have hk2 : k = c + 1 := by simpa using hk'
    subst hk2
    obtain ⟨kv, hkv, hfst⟩ := List.mem_map.mp hk
    have := (h.1 kv hkv).2
    omega

/-! ## `disable_te` structure lemmas -/

theorem lgDisableTe_genome (te : Nat) (s : LG) :
    (lgDisableTe te s).genome = s.genome ∨
    ∃ j f, s.genome[j]? = some f ∧
      (lgDisableTe te s).genome = s.genome.set j ⟨inactive_te, f.start, f.stop⟩ := by
  cases hdg : dictGet s.table te with
  | none => exact Or.inl (by simp [lgDisableTe, hdg])
  | some i =>
    by_cases hi : i = 0
    · exact Or.inl (by simp [lgDisableTe, hdg, hi])
    · cases hgi : s.genome[i]? with
      | none => exact Or.inl (by simp [lgDisableTe, hdg, hi, hgi])
      | some f => exact Or.inr ⟨i, f, hgi, by simp [lgDisableTe, hdg, hi, hgi]⟩

theorem lgDisableTe_table (te : Nat) (s : LG) :
    (lgDisableTe te s).table = s.table ∨
      (lgDisableTe te s).table = dictPop s.table te := by
  cases hdg : dictGet s.table te with
  | none => exact Or.inl (by simp [lgDisableTe, hdg])
  | some i =>
    by_cases hi : i = 0
    · exact Or.inl (by simp [lgDisableTe, hdg, hi])
    · cases hgi : s.genome[i]? with
      | none => exact Or.inr (by simp [lgDisableTe, hdg, hi, hgi])
      | some f => exact Or.inr (by simp [lgDisableTe, hdg, hi, hgi])

theorem lgDisableTe_counter (te : Nat) (s : LG) :
    (lgDisableTe te s).counter = s.counter := by
  cases hdg : dictGet s.table te with
  | none => simp [lgDisableTe, hdg]
  | some i =>
    by_cases hi : i = 0
    · simp [lgDisableTe, hdg, hi]
    · cases hgi : s.genome[i]? with
      | none => simp [lgDisableTe, hdg, hi, hgi]
      | some f => simp [lgDisableTe, hdg, hi, hgi]

theorem disable_if_active_eq (index : Nat) (s : LG) :
    disable_if_active index s = s ∨
      ∃ k, disable_if_active index s = lgDisableTe k s := by
  unfold disable_if_active
  cases s.table.find? (fun kv => kv.2 == index) with
  | none => exact Or.inl rfl
  | some kv => exact Or.inr ⟨kv.1, rfl⟩

theorem disable_if_active_facts (i : Nat) (s : LG) :
    (disable_if_active i s).counter = s.counter ∧
    ((disable_if_active i s).table = s.table ∨
      ∃ k, (disable_if_active i s).table = dictPop s.table k) ∧
    ((disable_if_active i s).genome = s.genome ∨
      ∃ j f, s.genome[j]? = some f ∧
        (disable_if_active i s).genome =
          s.genome.set j ⟨inactive_te, f.start, f.stop⟩) := by
  rcases disable_if_active_eq i s with heq | ⟨k, heq⟩
  · rw [heq]
    exact ⟨rfl, Or.inl rfl, Or.inl rfl⟩
  · rw [heq]
    refine ⟨lgDisableTe_counter k s, ?_, lgDisableTe_genome k s⟩
    rcases lgDisableTe_table k s with ht | ht
    · exact Or.inl ht
    · exact Or.inr ⟨k, ht⟩

theorem set_ne_nil {l : List α} (h : l ≠ []) (j : Nat) (v : α) :
    l.set j v ≠ [] := by
  intro hcon
  have := congrArg List.length hcon
  simp at this
  exact h this

/-! ## Preservation of the `ListGenome` invariant -/

theorem LGInv_insertTe {s : LG} (h : LGInv s) (pos length : Int)
    (hlen : 0 ≤ length) : LGInv (lgInsertTe pos length s).2 := by
  obtain ⟨hne, hch, htab⟩ := h
  cases hfind : find_where_to_insert pos s.genome with
  | none =>
    simp only [lgInsertTe, hfind]
    exact ⟨hne, hch, htab⟩
  | some i =>
    obtain ⟨old, hold, holds, holde⟩ := find_where_spec hfind
    simp only [lgInsertTe, hfind]
    obtain ⟨hc1, hc2, hc3⟩ := disable_if_active_facts i s
    -- facts about the state after the collision-disable step
    have hch1 : chainFrom 0 (disable_if_active i s).genome := by
      rcases hc3 with hg | ⟨j, f, hjf, hg⟩
      · rw [hg]; exact hch
      · rw [hg]; exact (chainFrom_set_same inactive_te hjf).mpr hch
    have hne1 : (disable_if_active i s).genome ≠ [] := by
      rcases hc3 with hg | ⟨j, f, hjf, hg⟩
      · rw [hg]; exact hne
      · rw [hg]; exact set_ne_nil hne _ _
    have hold1 : ∃ old', (disable_if_active i s).genome[i]? = some old' ∧
        old'.start = old.start ∧ old'.stop = old.stop := by
      rcases hc3 with hg | ⟨j, f, hjf, hg⟩
      · exact ⟨old, by rw [hg]; exact hold, rfl, rfl⟩
      · by_cases hij : j = i
        · subst hij
          have : f = old := by rw [hjf] at hold; exact Option.some.inj hold
          subst this
          obtain ⟨l₁, l₂, hdec, hlen₁⟩ := get?_eq_decomp hjf
          refine ⟨⟨inactive_te, f.start, f.stop⟩, ?_, rfl, rfl⟩
          rw [hg, hdec, ← hlen₁, set_append, get?_append_length]
        · exact ⟨old, by rw [hg, get?_set_ne hij]; exact hold, rfl, rfl⟩
    obtain ⟨old', hold', hs', hp'⟩ := hold1
    have htab1 : tableOK (disable_if_active i s).table s.counter := by
      rcases hc2 with ht | ⟨k, ht⟩
      · rw [ht]; exact htab
      · rw [ht]; exact tableOK_sublist (dictPop_sublist _ _) htab
    -- the splice
    rw [insert_into_eq active_te hold' (by omega : pos ≤ old'.stop)]
    obtain ⟨l₁, l₂, hdec, hlen₁⟩ := get?_eq_decomp hold'
    have htake : (disable_if_active i s).genome.take i = l₁ := by
      rw [hdec, ← hlen₁, take_append_length]
    have hdrop : (disable_if_active i s).genome.drop (i + 1) = l₂ := by
      rw [hdec, ← hlen₁,
        show l₁.length + 1 = (l₁ ++ [old']).length by simp,
        show l₁ ++ old' :: l₂ = (l₁ ++ [old']) ++ l₂ by simp,
        drop_append_length]
    rw [htake, hdrop]
    have hchdec := hch1
    rw [hdec] at hchdec
    rw [chainFrom_append] at hchdec
    obtain ⟨hchl₁, hstart, hle, hchl₂⟩ := hchdec
    refine ⟨by simp, ?_, ?_⟩
    · -- the partition chain of the spliced genome
      rw [chainFrom_append]
      refine ⟨hchl₁, hstart, show endFrom 0 l₁ ≤ pos by omega, rfl,
        show pos ≤ pos + length by omega, rfl,
        show pos + length ≤ pos + length + (old'.stop - pos) by omega, ?_⟩
      have hshift := chainFrom_shift (d := pos + length - pos) hchl₂
      have harith : old'.stop + (pos + length - pos) =
          pos + length + (old'.stop - pos) := by omega
      rw [harith] at hshift
      exact hshift
    · -- the table
      rw [hc1]
      exact tableOK_update_identifiers pos
        (tableOK_dictSet_fresh htab1 (by omega))

theorem LGInv_disableTe {s : LG} (h : LGInv s) (te : Nat) :
    LGInv (lgDisableTe te s) := by
  obtain ⟨hne, hch, htab⟩ := h
  refine ⟨?_, ?_, ?_⟩
  · rcases lgDisableTe_genome te s with hg | ⟨j, f, hjf, hg⟩
    · rw [hg]; exact hne
    · rw [hg]; exact set_ne_nil hne _ _
  · rcases lgDisableTe_genome te s with hg | ⟨j, f, hjf, hg⟩
    · rw [hg]; exact hch
    · rw [hg]; exact (chainFrom_set_same inactive_te hjf).mpr hch
  · rw [lgDisableTe_counter]
    rcases lgDisableTe_table te s with ht | ht
    · rw [ht]; exact htab
    · rw [ht]; exact tableOK_sublist (dictPop_sublist _ _) htab

theorem LGInv_copyTe {s : LG} (h : LGInv s) (te : Nat) (offset : Int) :
    LGInv (lgCopyTe te offset s).2 := by
  cases hdg : dictGet s.table te with
  | none => simpa [lgCopyTe, hdg] using h
  | some oi =>
    cases hgi : s.genome[oi]? with
    | none => simpa [lgCopyTe, hdg, hgi] using h
    | some orig =>
      have hmem : orig ∈ s.genome := List.getElem?_mem hgi
      have hso := chainFrom_mem h.2.1 hmem
      simp only [lgCopyTe, hdg, hgi]
      exact LGInv_insertTe h _ _ (by omega)

theorem LGInv_init {n : Int} (hn : 0 ≤ n) : LGInv (lgInit n) := by
  refine ⟨by simp [lgInit], ⟨rfl, hn, trivial⟩, ?_⟩
  simp [tableOK, lgInit]

/-- Every reachable `ListGenome` state satisfies the invariant. -/
theorem reachable_LGInv {s : LG} (h : ReachableLG s) : LGInv s := by
  induction h with
  | init n hn => exact LGInv_init (le_of_lt hn)
  | insert s pos len hr hp1 hp2 hp3 ih => exact LGInv_insertTe ih pos len (le_of_lt hp3)
  | copy s te off hr ih => exact LGInv_copyTe ih te off
  | disable s te hr ih => exact LGInv_disableTe ih te

/-! ## Render length -/

theorem lgRender_cons (f : Feature) (rest : List Feature) :
    lgRender (f :: rest) =
      List.replicate (f.stop - f.start).toNat (lgSym f.feature) ++ lgRender rest := by
  simp [lgRender]

theorem render_length_eq {a : Int} {l : List Feature} (h : chainFrom a l) :
    ((lgRender l).length : Int) = endFrom a l - a := by
  induction l generalizing a with
  | nil => simp [lgRender, endFrom]
  | cons f rest ih =>
    obtain ⟨h1, h2, h3⟩ := h
    have hrec := ih h3
    rw [lgRender_cons]
    simp only [List.length_append, List.length_replicate]
    push_cast
    rw [Int.toNat_of_nonneg (by omega), hrec]
    simp only [endFrom]
    omega

theorem lgLen_eq_endFrom {s : LG} (hne : s.genome ≠ []) :
    lgLen s = endFrom 0 s.genome := by
  unfold lgLen
  rw [endFrom_getLast? (a := 0) hne]

/-! ## Preservation of the `LinkedListGenome` invariant -/

theorem llFindCover_spec {pos : Int} {l : List (Nat × LFeature)} {acc : Int}
    {j : Nat} {nf : Nat × LFeature} {e : Int}
    (h : llFindCover pos l acc = some (j, nf, e)) (hacc : acc ≤ pos) :
    l[j]? = some nf ∧ e - nf.2.length ≤ pos ∧ pos < e := by
  induction l generalizing acc j with
  | nil => simp [llFindCover] at h
  | cons x rest ih =>
    by_cases hgt : acc + x.2.length > pos
    · simp only [llFindCover, if_pos hgt, Option.some.injEq] at h
      obtain ⟨rfl, rfl, rfl⟩ := h
      exact ⟨by simp, by omega, by omega⟩
    · simp only [llFindCover, if_neg hgt, Option.map_eq_some'] at h
      obtain ⟨⟨j', nf', e'⟩, hrec, heq⟩ := h
      simp only [Prod.mk.injEq] at heq
      obtain ⟨hj, hnf, he⟩ := heq
      subst hj
      subst hnf
      subst he
      obtain ⟨hg, hl, hr⟩ := ih hrec (by omega)
      exact ⟨by simpa using hg, hl, hr⟩

theorem llWalk_exit {isNext : Bool} {ring : List (Nat × LFeature)} :
    ∀ {fuel j : Nat} {off : Int} {jf : Nat} {offf : Int},
    llWalk isNext ring fuel j off = some (jf, offf) →
    offf ≤ 0 ∧ ((jf = j ∧ offf = off) ∨
      ∃ v, ring[jf]? = some v ∧ 0 < offf + v.2.length) := by
  intro fuel
  induction fuel with
  | zero => intro j off jf offf h; simp [llWalk] at h
  | succ n ih =>
    intro j off jf offf h
    by_cases hoff : off ≤ 0
    · simp only [llWalk, if_pos hoff, Option.some.injEq] at h
      obtain ⟨rfl, rfl⟩ := Prod.ext_iff.mp h.symm
      exact ⟨hoff, Or.inl ⟨rfl, rfl⟩⟩
    · simp only [llWalk, if_neg hoff] at h
      cases hget : ring[(if isNext then (j + 1) % ring.length
          else (j + ring.length - 1) % ring.length)]? with
      | none => rw [hget] at h; exact absurd h (by simp)
      | some v =>
        rw [hget] at h
        obtain ⟨h1, h2⟩ := ih h
        refine ⟨h1, Or.inr ?_⟩
        rcases h2 with ⟨rfl, rfl⟩ | ⟨w, hw, hlt⟩
        · exact ⟨v, hget, by omega⟩
        · exact ⟨w, hw, hlt⟩

theorem LLInv_insertInto {c : LLCore} (h : LLInv c) {length s1 s2 : Int}
    (j : Nat) (hlen : 0 ≤ length) (hs1 : 0 ≤ s1) (hs2 : 0 ≤ s2) :
    LLInv (llInsertInto length j s1 s2 c) := by
  unfold llInsertInto
  cases hj : c.ring[j]? with
  | none => exact h
  | some nv =>
    have hnv : 0 ≤ nv.2.length := h nv (List.getElem?_mem hj)
    intro nf hnf
    by_cases hact : nv.2.feature = active_te
    · simp only [hact, if_pos rfl, llDisableFeature, hj] at hnf
      rcases mem_pyInsert hnf with rfl | hnf
      · exact hs2
      rcases mem_pyInsert hnf with rfl | hnf
      · exact hlen
      rcases mem_set hnf with rfl | hnf
      · exact hs1
      rcases mem_set hnf with rfl | hnf
      · exact hnv
      · exact h nf hnf
    · simp only [if_neg hact] at hnf
      rcases mem_pyInsert hnf with rfl | hnf
      · exact hs2
      rcases mem_pyInsert hnf with rfl | hnf
      · exact hlen
      rcases mem_set hnf with rfl | hnf
      · exact hs1
      · exact h nf hnf

theorem LLInv_insertTe {c : LLCore} (h : LLInv c) {pos length : Int}
    (hpos : 0 ≤ pos) (hlen : 0 ≤ length) :
    LLInv (llInsertTeCore pos length c).2 := by
  cases hfind : llFindCover pos c.ring 0 with
  | none => simpa [llInsertTeCore, hfind] using h
  | some x =>
    obtain ⟨j, nf, acc⟩ := x
    obtain ⟨hg, hl, hr⟩ := llFindCover_spec hfind hpos
    simp only [llInsertTeCore, hfind]
    exact LLInv_insertInto h j hlen (by omega) (by omega)

theorem LLInv_copyTe {c c' : LLCore} (h : LLInv c) {te : Nat} {offset : Int}
    {r : Option Int} (hc : llCopyTeCore te offset c = some (r, c')) :
    LLInv c' := by
  cases hdg : dictGet c.table te with
  | none => simp [llCopyTeCore, hdg] at hc
  | some nid =>
    simp only [llCopyTeCore, hdg] at hc
    cases hidx : c.ring.findIdx? (fun nf => nf.1 == nid) with
    | none => simp [hidx] at hc
    | some j0 =>
      simp only [hidx] at hc
      cases hg0 : c.ring[j0]? with
      | none => simp [hg0] at hc
      | some pr =>
        obtain ⟨pid, orig⟩ := pr
        simp only [hg0] at hc
        have horig : 0 ≤ orig.length := h (pid, orig) (List.getElem?_mem hg0)
        by_cases hact : orig.feature ≠ active_te
        · rw [if_pos hact] at hc
          obtain ⟨-, rfl⟩ : none = r ∧ c = c' := by
            simpa using hc
          exact h
        · rw [if_neg hact] at hc
          by_cases hpo : 0 < offset
          · rw [if_pos hpo] at hc
            cases hw : llWalk true c.ring
                (llWalkFuel (offset - orig.length) c.ring) j0
                (offset - orig.length) with
            | none => simp [hw] at hc
            | some y =>
              obtain ⟨jf, offf⟩ := y
              simp only [hw] at hc
              cases hgf : c.ring[jf]? with
              | none => simp [hgf] at hc
              | some pf =>
                obtain ⟨pfid, vf⟩ := pf
                simp only [hgf, Option.some.injEq, Prod.mk.injEq] at hc
                obtain ⟨-, rfl⟩ := hc
                obtain ⟨ho1, ho2⟩ := llWalk_exit hw
                have hsz : 0 ≤ vf.length + offf := by
                  rcases ho2 with ⟨rfl, rfl⟩ | ⟨w, hw', hlt⟩
                  · have hpp : (pid, orig) = (pfid, vf) := by
                      rw [hg0] at hgf; exact Option.some.inj hgf
                    have : orig = vf := (Prod.ext_iff.mp hpp).2
                    subst this
                    omega
                  · have : w = (pfid, vf) := by
                      rw [hw'] at hgf; exact Option.some.inj hgf
                    subst this
                    simp only at hlt
                    omega
                exact LLInv_insertInto h jf horig hsz (abs_nonneg _)
          · rw [if_neg hpo] at hc
            cases hw : llWalk false c.ring (llWalkFuel (-offset) c.ring) j0
                (-offset) with
            | none => simp [hw] at hc
            | some y =>
              obtain ⟨jf, offf⟩ := y
              simp only [hw] at hc
              cases hgf : c.ring[jf]? with
              | none => simp [hgf] at hc
              | some pf =>
                obtain ⟨pfid, vf⟩ := pf
                simp only [hgf, Option.some.injEq, Prod.mk.injEq] at hc
                obtain ⟨-, rfl⟩ := hc
                obtain ⟨ho1, ho2⟩ := llWalk_exit hw
                have hsz : 0 ≤ vf.length + offf := by
                  rcases ho2 with ⟨rfl, rfl⟩ | ⟨w, hw', hlt⟩
                  · have hpp : (pid, orig) = (pfid, vf) := by
                      rw [hg0] at hgf; exact Option.some.inj hgf
                    have : orig = vf := (Prod.ext_iff.mp hpp).2
                    subst this
                    omega
                  · have : w = (pfid, vf) := by
                      rw [hw'] at hgf; exact Option.some.inj hgf
                    subst this
                    simp only at hlt
                    omega
                exact LLInv_insertInto h jf horig (abs_nonneg _) hsz

theorem LLInv_disableTe {c c' : LLCore} (h : LLInv c) {te : Nat}
    (hc : llDisableTeCore te c = some c') : LLInv c' := by
  cases hdg : dictGet c.table te with
  | none => simp [llDisableTeCore, hdg] at hc
  | some nid =>
    simp only [llDisableTeCore, hdg, Option.some.injEq] at hc
    obtain rfl := hc
    intro nf hnf
    simp only at hnf
    cases hg : c.ring[c.ring.findIdx (fun nf => nf.1 == nid)]? with
    | none => rw [hg] at hnf; exact h nf hnf
    | some pr =>
      rw [hg] at hnf
      rcases mem_set hnf with rfl | hnf
      · exact h pr (List.getElem?_mem hg)
      · exact h nf hnf

/-- Every reachable `LinkedListGenome` state satisfies the invariant. -/
theorem reachable_LLInv {c : LLCore} (h : ReachableLLG c) : LLInv c := by
  induction h with
  | init n hn =>
    intro nf hnf
    have : nf = (0, ⟨empty_te, n⟩) := by simpa [llInit] using hnf
    subst this
    simpa using le_of_lt hn
  | insert c pos len hr hp1 hp2 hp3 ih => exact LLInv_insertTe ih hp1 (le_of_lt hp3)
  | copy c c' te off r hr hc ih => exact LLInv_copyTe ih hc
  | disable c c' te hr hc ih => exact LLInv_disableTe ih hc

/-! ## Table lookup helpers for the collision path -/

theorem find?_key_of_mem_nodup {t : List (Nat × Nat)}
    (hnd : (t.map Prod.fst).Nodup) {k v : Nat} (hmem : (k, v) ∈ t) :
    t.find? (fun kv => kv.1 == k) = some (k, v) := by
  induction t with
  | nil => cases hmem
  | cons x xs ih =>
    rcases List.mem_cons.mp hmem with rfl | hmem'
    · simp [List.find?]
    · have hx : ¬ x.1 = k := by
        intro hk
        have : k ∈ xs.map Prod.fst := List.mem_map.mpr ⟨(k, v), hmem', rfl⟩
        rw [List.map_cons, List.nodup_cons] at hnd
        exact hnd.1 (hk ▸ this)
      rw [List.find?_cons_of_neg _ (by simpa using hx)]
      exact ih (by rw [List.map_cons, List.nodup_cons] at hnd; exact hnd.2) hmem'

theorem not_mem_keys_dictPop {t : List (Nat × Nat)}
    (hnd : (t.map Prod.fst).Nodup) (k : Nat) :
    k ∉ (dictPop t k).map Prod.fst := by
  induction t with
  | nil => simp [dictPop]
  | cons x xs ih =>
    rw [List.map_cons, List.nodup_cons] at hnd
    by_cases hx : x.1 = k
    · rw [show dictPop (x :: xs) k = xs by simp [dictPop, List.eraseP_cons, hx]]
      exact hx ▸ hnd.1
    · rw [show dictPop (x :: xs) k = x :: dictPop xs k by
        simp [dictPop, List.eraseP_cons, hx]]
      rw [List.map_cons]
      intro hmem
      rcases List.mem_cons.mp hmem with heq | hmem'
      · exact hx heq.symm
      · exact ih hnd.2 hmem'

theorem dictSet_fresh {t : List (Nat × Nat)} {c v : Nat}
    (h : ∀ kv ∈ t, kv.1 ≤ c) :
    dictSet t (c + 1) v = t ++ [(c + 1, v)] := by
  have hnot : t.any (fun kv => kv.1 == c + 1) = false := by
    rw [List.any_eq_false]
    intro kv hkv
    have := h kv hkv
    simp only [beq_iff_eq]
    omega
  unfold dictSet
  rw [hnot]
  simp

theorem drop_append_cons (l₁ l₂ : List α) (x : α) :
    (l₁ ++ x :: l₂).drop (l₁.length + 1) = l₂ := by
  rw [show l₁ ++ x :: l₂ = (l₁ ++ [x]) ++ l₂ by simp,
    show l₁.length + 1 = (l₁ ++ [x]).length by simp, drop_append_length]

theorem foldl_len_acc (l : List (Nat × LFeature)) : ∀ a : Int,
    l.foldl (fun acc nf => acc + nf.2.length) a =
      a + (l.map (fun nf => nf.2.length)).sum := by
  induction l with
  | nil => simp
  | cons x xs ih =>
    intro a
    simp only [List.foldl_cons, List.map_cons, List.sum_cons, ih]
    omega

theorem llLen_sum (c : LLCore) :
    llLen c = (c.ring.map (fun nf => nf.2.length)).sum := by
  unfold llLen
  simpa using foldl_len_acc c.ring 0

/-! ## Claim theorems -/

/-- C1, counterexample.  The claim says a reachable state never holds a
zero-length feature and that an empty outer remainder is omitted.  But
inserting at position 0 — preconditions met: `0 ≤ 0 < 10`, `3 > 0` — of
a fresh store stores the empty-length left remainder in both
implementations: a zero-length `Feature(empty, 0, 0)` record in the
ordered array, a zero-length node in the ring. -/
theorem claim_C1_counterexample :
    ReachableLG (lgInsertTe 0 3 (lgInit 10)).2 ∧
    (⟨empty_te, 0, 0⟩ : Feature) ∈ (lgInsertTe 0 3 (lgInit 10)).2.genome ∧
    ReachableLLG (llInsertTe 0 3 (llInit 10)).2 ∧
    (0, (⟨empty_te, 0⟩ : LFeature)) ∈ (llInsertTe 0 3 (llInit 10)).2.ring := by
  refine ⟨?_, by decide, ?_, by decide⟩
  · exact ReachableLG.insert _ 0 3 (ReachableLG.init 10 (by decide))
      (by decide) (by decide) (by decide)
  · exact ReachableLLG.insert _ 0 3 (ReachableLLG.init 10 (by decide))
      (by decide) (by decide) (by decide)

/-- C1, amended.  In every reachable state (operations meeting their
preconditions) the ordered features do tile the interval with no gaps
and no overlaps and the feature lengths sum to the current length — but
zero-length features may be stored: an empty outer remainder produced by
a split is kept, not omitted. -/
theorem claim_C1_amended :
    (∀ s : LG, ReachableLG s →
      chainFrom 0 s.genome ∧ sumLen s.genome = lgLen s) ∧
    (∀ c : LLCore, ReachableLLG c →
      (∀ nf ∈ c.ring, 0 ≤ nf.2.length) ∧
        llLen c = (c.ring.map (fun nf => nf.2.length)).sum) := by
  constructor
  · intro s hr
    obtain ⟨hne, hch, -⟩ := reachable_LGInv hr
    refine ⟨hch, ?_⟩
    rw [sumLen_eq_endFrom hch, lgLen_eq_endFrom hne]
    omega
  · intro c hr
    exact ⟨reachable_LLInv hr, llLen_sum c⟩

/-- C1, witness: the amended invariant evaluated on the store reached by
`insert_te(2, 3)` from a fresh size-10 store, in both implementations. -/
theorem claim_C1_amended_witness :
    chainFrom 0 (lgInsertTe 2 3 (lgInit 10)).2.genome ∧
    ∀ nf ∈ (llInsertTe 2 3 (llInit 10)).2.ring, 0 ≤ nf.2.length := by
  constructor
  · exact (claim_C1_amended.1 _ (ReachableLG.insert _ 2 3
      (ReachableLG.init 10 (by decide)) (by decide) (by decide) (by decide))).1
  · exact (claim_C1_amended.2 _ (ReachableLLG.insert _ 2 3
      (ReachableLLG.init 10 (by decide)) (by decide) (by decide) (by decide))).1

/-- C2: evaluation at the failing input.  `ListGenome(10).insert_te(0, 3)`
leaves `identifiers_active = {1: 4}` while the genome has only three
features, so active id 1 is reported by `active_tes()` but its mapped
feature does not exist (index 4 is out of range), contradicting the
claimed table invariant: `update_identifiers_from` compares the stored
index against a position and bumps it by 3. -/
theorem claim_C2_code_bug_eval :
    lgActiveTes (lgInsertTe 0 3 (lgInit 10)).2 = [1] ∧
    (lgInsertTe 0 3 (lgInit 10)).2.table = [(1, 4)] ∧
    (lgInsertTe 0 3 (lgInit 10)).2.genome.length = 3 ∧
    (lgInsertTe 0 3 (lgInit 10)).2.genome[4]? = none :=
  ⟨rfl, rfl, rfl, rfl⟩

/-- C3: evaluation at the failing input.  With the store after
`insert_te(2, 3)` on a fresh size-10 store (`L = 13`, TE 1 starts at 2),
`calculate_pos_from_offset` maps offset 11 to position 13, not
`(2 + 11) mod 13 = 0`, and `copy_te(1, -2)` and `copy_te(1, 11)` — two
offsets that differ by exactly `L` — produce different renders. -/
theorem claim_C3_code_bug_eval :
    calculate_pos_from_offset (lgInsertTe 2 3 (lgInit 10)).2 11
      ⟨active_te, 2, 5⟩ = 13 ∧
    (2 + 11) % lgLen (lgInsertTe 2 3 (lgInit 10)).2 = 0 ∧
    lgStr (lgCopyTe 1 11 (lgInsertTe 2 3 (lgInit 10)).2).2 =
      "--AAA--------AAA" ∧
    lgStr (lgCopyTe 1 (-2) (lgInsertTe 2 3 (lgInit 10)).2).2 =
      "AAA--AAA--------" :=
  ⟨rfl, rfl, rfl, rfl⟩

/-- C5: evaluation at the failing input.  In `LinkedListGenome`,
`disable_te` uses one-argument `dict.pop`, which raises `KeyError` for
an absent id (modelled `none`): disabling a never-issued id raises, and
disabling the same id twice raises on the second call instead of being
a no-op. -/
theorem claim_C5_code_bug_eval :
    llDisableTe 5 (llInit 10) = none ∧
    (llDisableTe 1 (llInsertTe 2 3 (llInit 10)).2).map (llDisableTe 1) =
      some none :=
  ⟨rfl, rfl⟩

/-- C6: evaluation at the failing input.  In `LinkedListGenome`,
`copy_te` reads `self.active_identifier[te]` directly, so for a
previously issued but disabled id it raises `KeyError` (modelled overall
`none`) instead of returning `None` without mutation: after
`insert_te(2, 3)` and `disable_te(1)`, `copy_te(1, 5)` raises. -/
theorem claim_C6_code_bug_eval :
    (llDisableTe 1 (llInsertTe 2 3 (llInit 10)).2).map
      (fun c => llCopyTe 1 5 c) = some none :=
  rfl

/-- C8: evaluation at the failing inputs.  `insert_te` does not reject
invalid arguments: `pos = -1` makes `find_where_to_insert` return `None`
and the subsequent indexing dies in a `TypeError` (modelled `none`,
state unchanged) rather than an explicit `InvalidArgument`;
`length = 0` at a valid position succeeds silently; and `pos = 10`,
which is outside `[0, 10)`, also succeeds silently because the cover
test uses `start <= pos <= end`. -/
theorem claim_C8_code_bug_eval :
    find_where_to_insert (-1) (lgInit 10).genome = none ∧
    (lgInsertTe (-1) 3 (lgInit 10)).1 = none ∧
    (lgInsertTe (-1) 3 (lgInit 10)).2 = lgInit 10 ∧
    (lgInsertTe 5 0 (lgInit 10)).1 = some 1 ∧
    (lgInsertTe 10 2 (lgInit 10)).1 = some 1 :=
  ⟨rfl, rfl, by decide, rfl, rfl⟩

/-- C9, counterexample.  The claimed render string `"--AAA-------"` has
12 characters; the store after `insert_te(2, 3)` on a fresh size-10
store renders 13 characters. -/
theorem claim_C9_counterexample :
    lgStr (lgInsertTe 2 3 (lgInit 10)).2 ≠ "--AAA-------" := by
  decide

/-- C9, amended: the end-to-end scenario with the renders corrected to
their 13-character values (`"--AAA--------"` and `"--xxx--------"`,
eight trailing dashes): `insert_te(2, 3)` returns id 1, the length
becomes 13, `active_tes()` is `{1}`; after `disable_te(1)` the run reads
`x` and `active_tes()` is empty. -/
theorem claim_C9_amended :
    (lgInsertTe 2 3 (lgInit 10)).1 = some 1 ∧
    lgLen (lgInsertTe 2 3 (lgInit 10)).2 = 13 ∧
    lgStr (lgInsertTe 2 3 (lgInit 10)).2 = "--AAA--------" ∧
    lgActiveTes (lgInsertTe 2 3 (lgInit 10)).2 = [1] ∧
    lgStr (lgDisableTe 1 (lgInsertTe 2 3 (lgInit 10)).2) = "--xxx--------" ∧
    lgActiveTes (lgDisableTe 1 (lgInsertTe 2 3 (lgInit 10)).2) = [] :=
  ⟨rfl, rfl, rfl, rfl, rfl, rfl⟩

/-- C10: evaluation at the failing input.  `active_identifier` is a
class attribute of `LinkedListGenome`, mutated in place, so it is one
dict shared by every instance: after `g1 = LinkedListGenome(5)`,
`g2 = LinkedListGenome(5)`, `g1.insert_te(1, 1)`, the query
`g2.active_tes()` returns `[1]`, not `[]`. -/
theorem claim_C10_code_bug_eval :
    llwActiveTes2 (llwInit 5 5) = [] ∧
    llwActiveTes2 (llwInsertTe1 1 1 (llwInit 5 5)).2 = [1] :=
  ⟨rfl, rfl⟩

/-- C7: on every reachable `ListGenome` state the string representation
has exactly `length()` characters, and it is by construction the
concatenation of each feature expanded to `end - start` copies of its
symbol (`-`/`A`/`x`). -/
theorem claim_C7_render_length (s : LG) (h : ReachableLG s) :
    (lgStr s).length = (lgLen s).toNat ∧
    lgStr s = String.mk ((s.genome.map (fun f =>
      List.replicate (f.stop - f.start).toNat (lgSym f.feature))).flatten) := by
  obtain ⟨hne, hch, -⟩ := reachable_LGInv h
  refine ⟨?_, rfl⟩
  have hlen := render_length_eq hch
  have hl : lgLen s = endFrom 0 s.genome := lgLen_eq_endFrom hne
  show (lgRender s.genome).length = (lgLen s).toNat
  omega

/-- C7, witness: the render length equals `length()` on the store
reached by `insert_te(2, 3)` from a fresh size-10 store. -/
theorem claim_C7_witness :
    (lgStr (lgInsertTe 2 3 (lgInit 10)).2).length =
      (lgLen (lgInsertTe 2 3 (lgInit 10)).2).toNat :=
  (claim_C7_render_length _ (ReachableLG.insert _ 2 3
    (ReachableLG.init 10 (by decide)) (by decide) (by decide) (by decide))).1

/-- C4: in any reachable state, when `insert_te(pos, length)` hits a
position covered by an `Active` feature owned by `old_id` (the table
entry the code finds for the covering index), the whole old feature is
relabelled `Inactive` — both remainders of the split keep the inactive
tag over all the old positions — a fresh `Active` run `[pos, pos+length)`
appears at the insertion point, and `old_id` is gone from
`active_tes()`. -/
theorem claim_C4_insert_disables_collided (s : LG) (pos length : Int)
    (i old_id : Nat) (old : Feature)
    (hr : ReachableLG s)
    (hfind : find_where_to_insert pos s.genome = some i)
    (hold : s.genome[i]? = some old)
    (hact : old.feature = active_te)
    (howner : s.table.find? (fun kv => kv.2 == i) = some (old_id, i)) :
    (lgInsertTe pos length s).2.genome =
      s.genome.take i ++ ⟨inactive_te, old.start, pos⟩ ::
        ⟨active_te, pos, pos + length⟩ ::
        ⟨inactive_te, pos + length, old.stop + length⟩ ::
        (s.genome.drop (i + 1)).map (shiftF length) ∧
    old_id ∉ lgActiveTes (lgInsertTe pos length s).2 := by
  obtain ⟨-, -, htab⟩ := reachable_LGInv hr
  obtain ⟨f, hf, hfs, hfe⟩ := find_where_spec hfind
  have hfeq : f = old := by rw [hold] at hf; exact (Option.some.inj hf).symm
  rw [hfeq] at hfs hfe
  have hmem : (old_id, i) ∈ s.table := List.mem_of_find?_eq_some howner
  have hub := htab.1 (old_id, i) hmem
  have hdict : dictGet s.table old_id = some i := by
    unfold dictGet
    rw [find?_key_of_mem_nodup htab.2 hmem]
    rfl
  have hi0 : ¬ i = 0 := by omega
  have hdis : disable_if_active i s =
      { genome := s.genome.set i ⟨inactive_te, old.start, old.stop⟩,
        table := dictPop s.table old_id, counter := s.counter } := by
    simp only [disable_if_active, howner]
    simp [lgDisableTe, hdict, hi0, hold]
  obtain ⟨l₁, l₂, hdec, hlen₁⟩ := get?_eq_decomp hold
  have hset : (s.genome.set i ⟨inactive_te, old.start, old.stop⟩)[i]? =
      some ⟨inactive_te, old.start, old.stop⟩ := by
    rw [hdec, ← hlen₁, set_append, get?_append_length]
  simp only [lgInsertTe, hfind, hdis]
  rw [insert_into_eq active_te hset hfe]
  constructor
  · have htake1 : (s.genome.set i
        ⟨inactive_te, old.start, old.stop⟩).take i = s.genome.take i := by
      rw [hdec, ← hlen₁, set_append, take_append_length, take_append_length]
    have hdrop1 : (s.genome.set i
        ⟨inactive_te, old.start, old.stop⟩).drop (i + 1) =
        s.genome.drop (i + 1) := by
      rw [hdec, ← hlen₁, set_append, drop_append_cons, drop_append_cons]
    rw [htake1, hdrop1,
      show pos + length - pos = length by omega,
      show pos + length + (old.stop - pos) = old.stop + length by omega]
  · show old_id ∉ (update_identifiers_from pos (dictSet (dictPop s.table old_id)
      (s.counter + 1) (i + 1))).map Prod.fst
    rw [update_identifiers_keys]
    have hpople : ∀ kv ∈ dictPop s.table old_id, kv.1 ≤ s.counter :=
      fun kv hkv => (htab.1 kv ((dictPop_sublist _ _).subset hkv)).2
    rw [dictSet_fresh hpople, List.map_append]
    intro hmem'
    rcases List.mem_append.mp hmem' with hmem' | hmem'
    · exact not_mem_keys_dictPop htab.2 old_id hmem'
    · have : old_id = s.counter + 1 := by simpa using hmem'
      omega

/-- C4, witness: the spec's own scenario — a length-10 active TE split
at local offset 4 by a length-3 insertion — evaluated concretely: the
previous id 1 is absent from `active_tes()` afterwards. -/
theorem claim_C4_witness :
    (1 : Nat) ∉ lgActiveTes (lgInsertTe 9 3 (lgInsertTe 5 10 (lgInit 10)).2).2 :=
  (claim_C4_insert_disables_collided (lgInsertTe 5 10 (lgInit 10)).2 9 3 1 1
    ⟨active_te, 5, 15⟩
    (ReachableLG.insert _ 5 10 (ReachableLG.init 10 (by decide))
      (by decide) (by decide) (by decide))
    (by decide) (by decide) rfl (by decide)).2

end TE
